import Mathlib

/-! The TinyOS packet envelope `message_t` (tos/types/TOSMsg.h)

The source declares one network-order structure:

    typedef nx_struct message_t {
      TOSRadioHeader header;
      nx_uint8_t data[TOSH_DATA_LENGTH];
      TOSRadioFooter footer;
      TOSRadioMetadata metadata;
    } message_t;

An `nx_struct` is made of external types only. External types are byte
aligned, so the members are stored back to back in declaration order and the
structure is a plain run of bytes. Bytes are natural numbers; every store
reduces its operand modulo 256.

`RadioTOSMsg.h` is included by the source but is not part of it: the three
sub-block types and the constant `TOSH_DATA_LENGTH` are parameters here.
-/

namespace TOSMsg

/-! ## Parameters taken from `RadioTOSMsg.h` -/

/-- What `TOSMsg.h` uses from the included `RadioTOSMsg.h`: the sizes in bytes
of the three sub-block types and the payload capacity constant. -/
structure RadioTOSMsg where
  sizeof_TOSRadioHeader : Nat
  TOSH_DATA_LENGTH : Nat
  sizeof_TOSRadioFooter : Nat
  sizeof_TOSRadioMetadata : Nat
deriving DecidableEq, Repr

/-! ## The declaration of `message_t` -/

/-- The four members of `nx_struct message_t`. -/
inductive Member where
  | header
  | data
  | footer
  | metadata
deriving DecidableEq, Repr

/-- Members of `message_t` in the order in which the source declares them. -/
def message_t_decl : List Member :=
  [Member.header, Member.data, Member.footer, Member.metadata]

/-- Size of `nx_uint8_t`, the element type of `data`. -/
def sizeof_nx_uint8_t : Nat := 1

/-- Size in bytes of the declared type of each member; `data` is an array of
`TOSH_DATA_LENGTH` elements of type `nx_uint8_t`. -/
def member_size (P : RadioTOSMsg) : Member → Nat
  | Member.header => P.sizeof_TOSRadioHeader
  | Member.data => P.TOSH_DATA_LENGTH * sizeof_nx_uint8_t
  | Member.footer => P.sizeof_TOSRadioFooter
  | Member.metadata => P.sizeof_TOSRadioMetadata

/-- Offset of a member inside an `nx_struct`: the sizes of the members declared
before it, added up (external types need no alignment, so nothing is skipped). -/
def nx_offsetof (size : Member → Nat) : List Member → Member → Nat
  | [], _ => 0
  | g :: rest, f => if g = f then 0 else size g + nx_offsetof size rest f

/-- Size of an `nx_struct`: the sizes of its members added up. -/
def nx_sizeof (size : Member → Nat) : List Member → Nat
  | [] => 0
  | g :: rest => size g + nx_sizeof size rest

/-- The value `offsetof(message_t, f)`. -/
def offsetof (P : RadioTOSMsg) (f : Member) : Nat :=
  nx_offsetof (member_size P) message_t_decl f

/-- The value `sizeof(message_t)`. -/
def sizeof_message_t (P : RadioTOSMsg) : Nat :=
  nx_sizeof (member_size P) message_t_decl

/-- Offset `k` of the envelope lies in the byte range of member `f`. -/
def in_member (P : RadioTOSMsg) (f : Member) (k : Nat) : Prop :=
  offsetof P f ≤ k ∧ k < offsetof P f + member_size P f

instance (P : RadioTOSMsg) (f : Member) (k : Nat) : Decidable (in_member P f k) :=
  inferInstanceAs (Decidable (_ ∧ _))

/-- A value of type `message_t`: one block of bytes per declared member, each of
the size of the member's type. -/
structure message_t (P : RadioTOSMsg) where
  header : List Nat
  data : List Nat
  footer : List Nat
  metadata : List Nat
  header_size : header.length = P.sizeof_TOSRadioHeader
  data_size : data.length = P.TOSH_DATA_LENGTH
  footer_size : footer.length = P.sizeof_TOSRadioFooter
  metadata_size : metadata.length = P.sizeof_TOSRadioMetadata

/-- The block of bytes a value holds for a member. -/
def message_t.member {P : RadioTOSMsg} (m : message_t P) : Member → List Nat
  | Member.header => m.header
  | Member.data => m.data
  | Member.footer => m.footer
  | Member.metadata => m.metadata

/-- Byte representation of an `nx_struct` value: the blocks of its members,
in declaration order, one after the other. -/
def nx_bytes (block : Member → List Nat) : List Member → List Nat
  | [] => []
  | g :: rest => block g ++ nx_bytes block rest

/-- Byte representation of a `message_t`. -/
def message_t.bytes {P : RadioTOSMsg} (m : message_t P) : List Nat :=
  nx_bytes m.member message_t_decl

/-! ## Memory -/

/-- The `w` bytes of `mem` that start at offset `off`. -/
def load (mem : List Nat) (off w : Nat) : List Nat :=
  (mem.drop off).take w

/-- Stores the bytes `bs` into `mem` from offset `off` on, one byte at a time. -/
def store (mem : List Nat) (off : Nat) : List Nat → List Nat
  | [] => mem
  | b :: bs => store (mem.set off b) (off + 1) bs

/-! ## Network-order accessors -/

/-- Byte order of a host CPU. -/
inductive ByteOrder where
  | little_endian
  | big_endian
deriving DecidableEq, Repr

/-- The `w` low base-256 digits of `v`, least significant digit first. -/
def le_bytes : Nat → Nat → List Nat
  | 0, _ => []
  | w + 1, v => v % 256 :: le_bytes w (v / 256)

/-- The number whose base-256 digits, least significant first, are `bs`. -/
def le_value : List Nat → Nat
  | [] => 0
  | b :: bs => b + 256 * le_value bs

/-- Modelled from the spec: the host-native representation of a logical value
(the integer types of the host are not in the source). A `w`-byte value sits in
host memory least significant byte first on a little-endian host and most
significant byte first on a big-endian host. -/
def native_bytes (host : ByteOrder) (w v : Nat) : List Nat :=
  match host with
  | ByteOrder.little_endian => le_bytes w v
  | ByteOrder.big_endian => (le_bytes w v).reverse

/-- Modelled from the spec: the logical value of a host-native representation
(inverse reading of `native_bytes`; the host integer types are not in the
source). -/
def native_value (host : ByteOrder) (bs : List Nat) : Nat :=
  match host with
  | ByteOrder.little_endian => le_value bs
  | ByteOrder.big_endian => le_value bs.reverse

/-- Modelled from the spec: conversion from host-native order into canonical
(big-endian, network) order, the conditional byte swap of section 9 selected by
the platform-order flag (the conversion routines of the network types are not
in the source). -/
def hton (host : ByteOrder) (bs : List Nat) : List Nat :=
  match host with
  | ByteOrder.little_endian => bs.reverse
  | ByteOrder.big_endian => bs

/-- Modelled from the spec: conversion from canonical (network) order into the
host's native order, the same conditional byte swap (the conversion routines of
the network types are not in the source). -/
def ntoh (host : ByteOrder) (bs : List Nat) : List Nat :=
  match host with
  | ByteOrder.little_endian => bs.reverse
  | ByteOrder.big_endian => bs

/-- Modelled from the spec: field write of section 4.1 (the accessors of the
network types are not in the source). The logical value is converted from
host-native order into canonical order and stored at the field's offset. -/
def write_field (host : ByteOrder) (off w v : Nat) (mem : List Nat) : List Nat :=
  store mem off (hton host (native_bytes host w v))

/-- Modelled from the spec: field read of section 4.1 (the accessors of the
network types are not in the source). The raw bytes at the field's offset are
converted from canonical order to the host's native order and read as a value. -/
def read_field (host : ByteOrder) (off w : Nat) (mem : List Nat) : Nat :=
  native_value host (ntoh host (load mem off w))

/-- The canonical (big-endian) bytes of a `w`-byte value: most significant
byte first. -/
def canonical_bytes (w v : Nat) : List Nat :=
  (le_bytes w v).reverse

/-! ## Access to the payload elements -/

/-- Offset in the envelope of the element `data[i]`: the array starts at
`offsetof(message_t, data)` and its elements are `nx_uint8_t`. The index is not
compared with `TOSH_DATA_LENGTH`: the source declares a plain array. -/
def data_offset (P : RadioTOSMsg) (i : Nat) : Nat :=
  offsetof P Member.data + i * sizeof_nx_uint8_t

/-- The expression `m->data[i]` read as a value. -/
def read_data (P : RadioTOSMsg) (host : ByteOrder) (i : Nat) (mem : List Nat) : Nat :=
  read_field host (data_offset P i) sizeof_nx_uint8_t mem

/-- The assignment `m->data[i] = v`. -/
def write_data (P : RadioTOSMsg) (host : ByteOrder) (i v : Nat) (mem : List Nat) :
    List Nat :=
  write_field host (data_offset P i) sizeof_nx_uint8_t v mem

/-- Writes the logical bytes `bs` to `data[i]`, `data[i+1]`, ... in turn. -/
def write_payload (P : RadioTOSMsg) (host : ByteOrder) :
    Nat → List Nat → List Nat → List Nat
  | _, [], mem => mem
  | i, b :: bs, mem => write_payload P host (i + 1) bs (write_data P host i b mem)

/-- The payload view: the bytes of the member `data`. -/
def payload (P : RadioTOSMsg) (mem : List Nat) : List Nat :=
  load mem (offsetof P Member.data) (member_size P Member.data)

/-! ## Views used by the radio driver -/

/-- Modelled from the spec: the raw transmit view of section 4.1 (the radio
driver is not in the source). It is the whole byte range of the envelope as it
is stored, with no conversion applied. -/
def raw_transmit_view (P : RadioTOSMsg) (mem : List Nat) : List Nat :=
  load mem 0 (sizeof_message_t P)

/-- Modelled from the spec: the byte sequence placed on the medium, section 6
(the radio driver is not in the source): the header bytes, then the payload
bytes, then the footer bytes. -/
def transmitted (P : RadioTOSMsg) (mem : List Nat) : List Nat :=
  load mem (offsetof P Member.header) (member_size P Member.header)
    ++ load mem (offsetof P Member.data) (member_size P Member.data)
    ++ load mem (offsetof P Member.footer) (member_size P Member.footer)

/-! ## Declared fields and their accessors -/

/-- Modelled from the spec: a field description (section 7), the fixed offset of
a declared field in the envelope and its declared width in bytes (the field
declarations of the header, footer and metadata types are not in the source). -/
structure Field where
  offset : Nat
  width : Nat
deriving DecidableEq, Repr

/-- The field description of the element `data[i]`, read off the declaration
`nx_uint8_t data[TOSH_DATA_LENGTH]`. -/
def data_field (P : RadioTOSMsg) (i : Nat) : Field :=
  { offset := data_offset P i, width := sizeof_nx_uint8_t }

/-- Modelled from the spec: an accessor bound to a field description (the
accessors of the network types are generated by the compiler and are not in
the source). An accessor exists only together with the fact that its width is
the declared width of its field. -/
structure Accessor where
  field : Field
  width : Nat
  width_eq : width = field.width

/-- Modelled from the spec: construction of an accessor of width `w` for a field
description, sections 4.1 and 7 (no such construction is in the source). A
width that differs from the declared width is refused here, before any access
is made. -/
def Accessor.make (f : Field) (w : Nat) : Option Accessor :=
  if h : w = f.width then some { field := f, width := w, width_eq := h } else none

/-- Modelled from the spec: field write through an accessor (not in the
source). It cannot fail: the result is the buffer after the store. -/
def Accessor.write (a : Accessor) (host : ByteOrder) (v : Nat) (mem : List Nat) :
    List Nat :=
  write_field host a.field.offset a.width v mem

/-- Modelled from the spec: field read through an accessor (not in the
source). It cannot fail: the result is the value read. -/
def Accessor.read (a : Accessor) (host : ByteOrder) (mem : List Nat) : Nat :=
  read_field host a.field.offset a.width mem

/-! ## Sample platform and envelopes -/

/-- A small platform: 2 header bytes, 3 payload bytes, 2 footer bytes and
1 metadata byte. -/
def P0 : RadioTOSMsg :=
  { sizeof_TOSRadioHeader := 2, TOSH_DATA_LENGTH := 3,
    sizeof_TOSRadioFooter := 2, sizeof_TOSRadioMetadata := 1 }

/-- An envelope of platform `P0`. -/
def m0 : message_t P0 :=
  { header := [1, 2], data := [3, 4, 5], footer := [6, 7], metadata := [8],
    header_size := rfl, data_size := rfl, footer_size := rfl, metadata_size := rfl }

/-- The envelope `m0` with another metadata block. -/
def m1 : message_t P0 :=
  { header := [1, 2], data := [3, 4, 5], footer := [6, 7], metadata := [9],
    header_size := rfl, data_size := rfl, footer_size := rfl, metadata_size := rfl }

/-- A two-byte field at the start of the header of `P0`. -/
def field0 : Field :=
  { offset := 0, width := 2 }

/-! ## Facts about the layout -/

theorem offsetof_header (P : RadioTOSMsg) : offsetof P Member.header = 0 := rfl

theorem offsetof_data (P : RadioTOSMsg) :
    offsetof P Member.data = P.sizeof_TOSRadioHeader := rfl

theorem offsetof_footer (P : RadioTOSMsg) :
    offsetof P Member.footer = P.sizeof_TOSRadioHeader + P.TOSH_DATA_LENGTH := by
  simp [offsetof, nx_offsetof, message_t_decl, member_size, sizeof_nx_uint8_t]

theorem offsetof_metadata (P : RadioTOSMsg) :
    offsetof P Member.metadata
      = P.sizeof_TOSRadioHeader + P.TOSH_DATA_LENGTH + P.sizeof_TOSRadioFooter := by
  simp [offsetof, nx_offsetof, message_t_decl, member_size, sizeof_nx_uint8_t]
  omega

theorem sizeof_message_t_eq (P : RadioTOSMsg) :
    sizeof_message_t P
      = P.sizeof_TOSRadioHeader + P.TOSH_DATA_LENGTH + P.sizeof_TOSRadioFooter
        + P.sizeof_TOSRadioMetadata := by
  simp [sizeof_message_t, nx_sizeof, message_t_decl, member_size, sizeof_nx_uint8_t]
  omega

theorem bytes_eq {P : RadioTOSMsg} (m : message_t P) :
    m.bytes = m.header ++ m.data ++ m.footer ++ m.metadata := by
  simp [message_t.bytes, nx_bytes, message_t_decl, message_t.member]

theorem bytes_length {P : RadioTOSMsg} (m : message_t P) :
    m.bytes.length = sizeof_message_t P := by
  rw [bytes_eq, sizeof_message_t_eq]
  simp [m.header_size, m.data_size, m.footer_size, m.metadata_size]
  omega

/-! ## Facts about memory -/

theorem load_length (mem : List Nat) (off w : Nat) (h : off + w ≤ mem.length) :
    (load mem off w).length = w := by
  simp [load]
  omega

theorem load_getElem? (mem : List Nat) (off w j : Nat) :
    (load mem off w)[j]? = if j < w then mem[off + j]? else none := by
  simp [load, List.getElem?_take]

theorem load_append_left (a b : List Nat) (w : Nat) (h : a.length = w) :
    load (a ++ b) 0 w = a := by
  subst h
  simp [load]

theorem load_append_right (a b : List Nat) (off w : Nat) (h : a.length ≤ off) :
    load (a ++ b) off w = load b (off - a.length) w := by
  simp [load, List.drop_append_eq_append_drop, List.drop_eq_nil_of_le h]

theorem store_length (bs : List Nat) :
    ∀ (mem : List Nat) (off : Nat), (store mem off bs).length = mem.length := by
  induction bs with
  | nil => intro mem off; rfl
  | cons b bs ih => intro mem off; simp [store, ih]

theorem store_getElem?_outside (bs : List Nat) :
    ∀ (mem : List Nat) (off k : Nat), (k < off ∨ off + bs.length ≤ k) →
      (store mem off bs)[k]? = mem[k]? := by
  induction bs with
  | nil => intro mem off k _; rfl
  | cons b bs ih =>
    intro mem off k hk
    simp only [store, List.length_cons] at hk ⊢
    rw [ih (mem.set off b) (off + 1) k (by omega)]
    exact List.getElem?_set_ne (by omega)

theorem store_getElem?_inside (bs : List Nat) :
    ∀ (mem : List Nat) (off k : Nat), off ≤ k → k < off + bs.length →
      off + bs.length ≤ mem.length → (store mem off bs)[k]? = bs[k - off]? := by
  induction bs with
  | nil => intro mem off k h1 h2 _; simp at h2; omega
  | cons b bs ih =>
    intro mem off k h1 h2 h3
    simp only [store, List.length_cons] at h2 h3 ⊢
    by_cases hk : k = off
    · subst hk
      rw [store_getElem?_outside bs _ _ _ (Or.inl (Nat.lt_succ_self _))]
      have : k < mem.length := by omega
      simp [List.getElem?_set_self this]
    · have h4 : k - off = (k - (off + 1)) + 1 := by omega
      rw [ih (mem.set off b) (off + 1) k (by omega) (by omega) (by simp; omega), h4]
      simp

theorem load_store_same (mem : List Nat) (off : Nat) (bs : List Nat)
    (h : off + bs.length ≤ mem.length) :
    load (store mem off bs) off bs.length = bs := by
  apply List.ext_getElem?
  intro j
  rw [load_getElem?]
  by_cases hj : j < bs.length
  · rw [if_pos hj, store_getElem?_inside bs mem off (off + j) (by omega) (by omega) h]
    simp
  · rw [if_neg hj]
    exact (List.getElem?_eq_none (by omega)).symm

theorem load_store_disjoint (mem : List Nat) (off : Nat) (bs : List Nat) (o w : Nat)
    (h : o + w ≤ off ∨ off + bs.length ≤ o) :
    load (store mem off bs) o w = load mem o w := by
  apply List.ext_getElem?
  intro j
  rw [load_getElem?, load_getElem?]
  by_cases hj : j < w
  · rw [if_pos hj, if_pos hj, store_getElem?_outside bs mem off (o + j) (by omega)]
  · rw [if_neg hj, if_neg hj]

/-! ## Facts about the accessors -/

theorem le_bytes_length (w : Nat) : ∀ v : Nat, (le_bytes w v).length = w := by
  induction w with
  | zero => intro v; rfl
  | succ w ih => intro v; simp [le_bytes, ih]

theorem le_value_le_bytes (w : Nat) : ∀ v : Nat, v < 256 ^ w → le_value (le_bytes w v) = v := by
  induction w with
  | zero => intro v hv; simp at hv; simp [le_bytes, le_value, hv]
  | succ w ih =>
    intro v hv
    have h1 : v / 256 < 256 ^ w := by
      rw [Nat.div_lt_iff_lt_mul (by decide)]
      rw [pow_succ] at hv
      exact hv
    simp only [le_bytes, le_value, ih (v / 256) h1]
    omega

theorem canonical_bytes_length (w v : Nat) : (canonical_bytes w v).length = w := by
  simp [canonical_bytes, le_bytes_length]

theorem hton_native_bytes (host : ByteOrder) (w v : Nat) :
    hton host (native_bytes host w v) = canonical_bytes w v := by
  cases host <;> simp [hton, native_bytes, canonical_bytes]

theorem native_value_ntoh (host : ByteOrder) (w v : Nat) (hv : v < 256 ^ w) :
    native_value host (ntoh host (canonical_bytes w v)) = v := by
  cases host <;> simp [native_value, ntoh, canonical_bytes, le_value_le_bytes w v hv]

theorem write_field_eq (host : ByteOrder) (off w v : Nat) (mem : List Nat) :
    write_field host off w v mem = store mem off (canonical_bytes w v) := by
  simp [write_field, hton_native_bytes]

theorem write_field_length (host : ByteOrder) (off w v : Nat) (mem : List Nat) :
    (write_field host off w v mem).length = mem.length := by
  simp [write_field_eq, store_length]

theorem load_write_field_same (host : ByteOrder) (off w v : Nat) (mem : List Nat)
    (h : off + w ≤ mem.length) :
    load (write_field host off w v mem) off w = canonical_bytes w v := by
  rw [write_field_eq]
  have h1 := load_store_same mem off (canonical_bytes w v)
    (by rw [canonical_bytes_length]; exact h)
  rw [canonical_bytes_length] at h1
  exact h1

theorem load_write_field_disjoint (host : ByteOrder) (off w v : Nat) (mem : List Nat)
    (o n : Nat) (h : o + n ≤ off ∨ off + w ≤ o) :
    load (write_field host off w v mem) o n = load mem o n := by
  rw [write_field_eq]
  exact load_store_disjoint mem off _ o n (by rw [canonical_bytes_length]; exact h)

theorem read_write_field (host host2 : ByteOrder) (off w v : Nat) (mem : List Nat)
    (h : off + w ≤ mem.length) (hv : v < 256 ^ w) :
    read_field host off w (write_field host2 off w v mem) = v := by
  rw [read_field, load_write_field_same host2 off w v mem h]
  exact native_value_ntoh host w v hv

/-! ## Size and layout of the envelope -/

/-- C1: the byte representation of every `message_t` has exactly
`H + C + F + M` bytes, the sizes of the header type, the payload array, the
footer type and the metadata type added up. It is the four blocks one after the
other with nothing between or after them, and its size is the same for every
value, whatever the contents. -/
theorem message_t_size_exact (P : RadioTOSMsg) (m : message_t P) :
    m.bytes.length
        = P.sizeof_TOSRadioHeader + P.TOSH_DATA_LENGTH + P.sizeof_TOSRadioFooter
          + P.sizeof_TOSRadioMetadata
      ∧ sizeof_message_t P
        = P.sizeof_TOSRadioHeader + P.TOSH_DATA_LENGTH + P.sizeof_TOSRadioFooter
          + P.sizeof_TOSRadioMetadata
      ∧ m.bytes = m.header ++ m.data ++ m.footer ++ m.metadata
      ∧ ∀ m2 : message_t P, m2.bytes.length = m.bytes.length := by
  refine ⟨?_, sizeof_message_t_eq P, bytes_eq m, ?_⟩
  · rw [bytes_length, sizeof_message_t_eq]
  · intro m2
    rw [bytes_length, bytes_length]

theorem load_member {P : RadioTOSMsg} (m : message_t P) (f : Member) :
    load m.bytes (offsetof P f) (member_size P f) = m.member f := by
  have hh := m.header_size
  have hd := m.data_size
  have hf := m.footer_size
  have hm := m.metadata_size
  rw [bytes_eq]
  cases f
  · rw [offsetof_header, List.append_assoc, List.append_assoc]
    exact load_append_left _ _ _ hh
  · rw [offsetof_data, List.append_assoc, List.append_assoc,
      load_append_right _ _ _ _ (by omega), hh, Nat.sub_self]
    exact load_append_left _ _ _ (by simp [member_size, sizeof_nx_uint8_t, hd])
  · rw [offsetof_footer, List.append_assoc, List.append_assoc,
      load_append_right _ _ _ _ (by omega), load_append_right _ _ _ _ (by omega)]
    have h0 : P.sizeof_TOSRadioHeader + P.TOSH_DATA_LENGTH - m.header.length
        - m.data.length = 0 := by omega
    rw [h0]
    exact load_append_left _ _ _ hf
  · rw [offsetof_metadata, List.append_assoc, List.append_assoc,
      load_append_right _ _ _ _ (by omega), load_append_right _ _ _ _ (by omega),
      load_append_right _ _ _ _ (by omega)]
    have h0 : P.sizeof_TOSRadioHeader + P.TOSH_DATA_LENGTH + P.sizeof_TOSRadioFooter
        - m.header.length - m.data.length - m.footer.length = 0 := by omega
    rw [h0]
    have h1 := load_append_left m.metadata [] _ hm
    rw [List.append_nil] at h1
    exact h1

/-- C2: in the byte representation of every `message_t` the header occupies the
offsets `[0, H)`, the payload `[H, H+C)`, the footer `[H+C, H+C+F)` and the
metadata `[H+C+F, H+C+F+M)`: each range holds the bytes of its member, no offset
belongs to two members, and the offsets below the size of the envelope are
exactly those that belong to some member. -/
theorem message_t_member_ranges (P : RadioTOSMsg) (m : message_t P) :
    offsetof P Member.header = 0
      ∧ offsetof P Member.data = P.sizeof_TOSRadioHeader
      ∧ offsetof P Member.footer = P.sizeof_TOSRadioHeader + P.TOSH_DATA_LENGTH
      ∧ offsetof P Member.metadata
          = P.sizeof_TOSRadioHeader + P.TOSH_DATA_LENGTH + P.sizeof_TOSRadioFooter
      ∧ load m.bytes 0 P.sizeof_TOSRadioHeader = m.header
      ∧ load m.bytes P.sizeof_TOSRadioHeader P.TOSH_DATA_LENGTH = m.data
      ∧ load m.bytes (P.sizeof_TOSRadioHeader + P.TOSH_DATA_LENGTH)
          P.sizeof_TOSRadioFooter = m.footer
      ∧ load m.bytes
          (P.sizeof_TOSRadioHeader + P.TOSH_DATA_LENGTH + P.sizeof_TOSRadioFooter)
          P.sizeof_TOSRadioMetadata = m.metadata
      ∧ (∀ f g k, in_member P f k → in_member P g k → f = g)
      ∧ (∀ k, k < sizeof_message_t P ↔ ∃ f, in_member P f k) := by
  have e1 := offsetof_header P
  have e2 := offsetof_data P
  have e3 := offsetof_footer P
  have e4 := offsetof_metadata P
  have e5 := sizeof_message_t_eq P
  have l1 := load_member m Member.header
  have l2 := load_member m Member.data
  have l3 := load_member m Member.footer
  have l4 := load_member m Member.metadata
  rw [e1] at l1
  rw [e2] at l2
  rw [e3] at l3
  rw [e4] at l4
  simp only [member_size, sizeof_nx_uint8_t, Nat.mul_one, message_t.member] at l1 l2 l3 l4
  refine ⟨e1, e2, e3, e4, l1, l2, l3, l4, ?_, ?_⟩
  · intro f g k hf hg
    unfold in_member at hf hg
    cases f <;> cases g <;> first
      | rfl
      | (exfalso
         simp only [e1, e2, e3, e4, member_size, sizeof_nx_uint8_t, Nat.mul_one] at hf hg
         omega)
  · intro k
    rw [e5]
    constructor
    · intro hk
      by_cases h1 : k < P.sizeof_TOSRadioHeader
      · exact ⟨Member.header, by
          unfold in_member
          simp only [e1, member_size]
          omega⟩
      · by_cases h2 : k < P.sizeof_TOSRadioHeader + P.TOSH_DATA_LENGTH
        · exact ⟨Member.data, by
            unfold in_member
            simp only [e2, member_size, sizeof_nx_uint8_t, Nat.mul_one]
            omega⟩
        · by_cases h3 : k < P.sizeof_TOSRadioHeader + P.TOSH_DATA_LENGTH
              + P.sizeof_TOSRadioFooter
          · exact ⟨Member.footer, by
              unfold in_member
              simp only [e3, member_size]
              omega⟩
          · exact ⟨Member.metadata, by
              unfold in_member
              simp only [e4, member_size]
              omega⟩
    · rintro ⟨f, hf⟩
      unfold in_member at hf
      cases f <;>
        simp only [e1, e2, e3, e4, member_size, sizeof_nx_uint8_t, Nat.mul_one] at hf <;>
        omega

/-! ## What the radio driver sees -/

theorem transmitted_eq {P : RadioTOSMsg} (m : message_t P) :
    transmitted P m.bytes = m.header ++ m.data ++ m.footer := by
  unfold transmitted
  rw [load_member, load_member, load_member]
  rfl

theorem raw_transmit_view_of_length (P : RadioTOSMsg) (mem : List Nat)
    (h : mem.length = sizeof_message_t P) : raw_transmit_view P mem = mem := by
  unfold raw_transmit_view load
  rw [← h]
  simp

/-- C3: the transmitted byte sequence of every `message_t` is its header bytes,
then its payload bytes, then its footer bytes; these are the first `H + C + F`
bytes of the envelope. Two envelopes with the same header, payload and footer
give the same transmitted bytes, whatever their metadata. -/
theorem transmitted_excludes_metadata (P : RadioTOSMsg) (m m2 : message_t P)
    (hh : m.header = m2.header) (hd : m.data = m2.data) (hf : m.footer = m2.footer) :
    transmitted P m.bytes = m.header ++ m.data ++ m.footer
      ∧ transmitted P m.bytes
          = m.bytes.take
              (P.sizeof_TOSRadioHeader + P.TOSH_DATA_LENGTH + P.sizeof_TOSRadioFooter)
      ∧ (transmitted P m.bytes).length
          = P.sizeof_TOSRadioHeader + P.TOSH_DATA_LENGTH + P.sizeof_TOSRadioFooter
      ∧ transmitted P m.bytes = transmitted P m2.bytes := by
  have hlen : (m.header ++ m.data ++ m.footer).length
      = P.sizeof_TOSRadioHeader + P.TOSH_DATA_LENGTH + P.sizeof_TOSRadioFooter := by
    simp [m.header_size, m.data_size, m.footer_size]
    omega
  refine ⟨transmitted_eq m, ?_, ?_, ?_⟩
  · rw [transmitted_eq, bytes_eq, ← hlen, List.take_left']
    rfl
  · rw [transmitted_eq, hlen]
  · rw [transmitted_eq, transmitted_eq, hh, hd, hf]

/-- Witness of C3: the sample envelopes `m0` and `m1` differ in their metadata
only, and their transmitted bytes are the same seven bytes. -/
theorem transmitted_excludes_metadata_witness :
    m0.metadata ≠ m1.metadata
      ∧ transmitted P0 m0.bytes = [1, 2, 3, 4, 5, 6, 7]
      ∧ transmitted P0 m0.bytes = transmitted P0 m1.bytes :=
  ⟨by decide, by decide, (transmitted_excludes_metadata P0 m0 m1 rfl rfl rfl).2.2.2⟩

/-- C4: the raw transmit view of a `message_t` is the whole byte range of the
envelope, `H + C + F + M` bytes: header, payload, footer and metadata bytes in
that order. It is the stored bytes themselves: after a field write made on any
host, the view is the buffer as the accessor left it, and at the field's offset
it holds the canonical (big-endian) bytes of the value. -/
theorem raw_transmit_view_canonical (P : RadioTOSMsg) (m : message_t P)
    (host : ByteOrder) (off w v : Nat) (h : off + w ≤ sizeof_message_t P) :
    raw_transmit_view P m.bytes = m.header ++ m.data ++ m.footer ++ m.metadata
      ∧ (raw_transmit_view P m.bytes).length
          = P.sizeof_TOSRadioHeader + P.TOSH_DATA_LENGTH + P.sizeof_TOSRadioFooter
            + P.sizeof_TOSRadioMetadata
      ∧ raw_transmit_view P (write_field host off w v m.bytes)
          = write_field host off w v m.bytes
      ∧ load (raw_transmit_view P (write_field host off w v m.bytes)) off w
          = canonical_bytes w v := by
  have hv := raw_transmit_view_of_length P m.bytes (bytes_length m)
  have hw := raw_transmit_view_of_length P (write_field host off w v m.bytes)
    (by rw [write_field_length, bytes_length])
  refine ⟨?_, ?_, hw, ?_⟩
  · rw [hv, bytes_eq]
  · rw [hv, bytes_length, sizeof_message_t_eq]
  · rw [hw]
    exact load_write_field_same host off w v m.bytes (by rw [bytes_length]; exact h)

/-- Witness of C4: on a little-endian host the value `0x0A0B` written to a
two-byte field at offset 5 of `m0` shows in the raw transmit view as `0x0A`,
`0x0B`, not in the host's native order `0x0B`, `0x0A`. -/
theorem raw_transmit_view_canonical_witness :
    native_bytes ByteOrder.little_endian 2 0x0A0B = [0x0B, 0x0A]
      ∧ raw_transmit_view P0 (write_field ByteOrder.little_endian 5 2 0x0A0B m0.bytes)
          = [1, 2, 3, 4, 5, 0x0A, 0x0B, 8]
      ∧ load (raw_transmit_view P0
            (write_field ByteOrder.little_endian 5 2 0x0A0B m0.bytes)) 5 2
          = canonical_bytes 2 0x0A0B :=
  ⟨by decide, by decide,
    (raw_transmit_view_canonical P0 m0 ByteOrder.little_endian 5 2 0x0A0B
      (by decide)).2.2.2⟩

/-! ## The payload array -/

theorem data_offset_eq (P : RadioTOSMsg) (i : Nat) :
    data_offset P i = P.sizeof_TOSRadioHeader + i := by
  simp [data_offset, offsetof_data, sizeof_nx_uint8_t]

theorem write_data_eq (P : RadioTOSMsg) (host : ByteOrder) (i v : Nat) (mem : List Nat) :
    write_data P host i v mem = mem.set (P.sizeof_TOSRadioHeader + i) (v % 256) := by
  rw [write_data, write_field_eq, data_offset_eq]
  rfl

theorem write_payload_eq (P : RadioTOSMsg) (host : ByteOrder) (bs : List Nat) :
    ∀ (i : Nat) (mem : List Nat),
      write_payload P host i bs mem
        = store mem (P.sizeof_TOSRadioHeader + i) (bs.map (fun b => b % 256)) := by
  induction bs with
  | nil => intro i mem; rfl
  | cons b bs ih =>
    intro i mem
    simp only [write_payload, List.map_cons, store]
    rw [ih (i + 1), write_data_eq]
    rfl

theorem map_mod_of_lt (bs : List Nat) (hb : ∀ b ∈ bs, b < 256) :
    bs.map (fun b => b % 256) = bs := by
  induction bs with
  | nil => rfl
  | cons b bs ih =>
    simp only [List.map_cons]
    rw [ih (fun c hc => hb c (List.mem_cons_of_mem _ hc)),
      Nat.mod_eq_of_lt (hb b (List.mem_cons_self _ _))]

theorem load_one (mem : List Nat) (off : Nat) (h : off < mem.length) :
    load mem off 1 = [mem.get ⟨off, h⟩] := by
  apply List.ext_getElem?
  intro j
  rw [load_getElem?]
  cases j with
  | zero => simp [List.getElem?_eq_getElem h]
  | succ j => simp

theorem read_field_one (host : ByteOrder) (mem : List Nat) (off : Nat)
    (h : off < mem.length) : read_field host off 1 mem = mem.get ⟨off, h⟩ := by
  rw [read_field, load_one mem off h]
  cases host <;> simp [ntoh, native_value, le_value]

theorem payload_eq {P : RadioTOSMsg} (m : message_t P) : payload P m.bytes = m.data :=
  load_member m Member.data

theorem payload_length (P : RadioTOSMsg) (mem : List Nat)
    (h : mem.length = sizeof_message_t P) :
    (payload P mem).length = P.TOSH_DATA_LENGTH := by
  unfold payload
  rw [load_length]
  · simp [member_size, sizeof_nx_uint8_t]
  · rw [h, offsetof_data, sizeof_message_t_eq]
    simp only [member_size, sizeof_nx_uint8_t, Nat.mul_one]
    omega

/-- Counterexample to C5 as stated: on the sample platform the payload has
three elements, and the element `data[3]`, one past capacity, is neither
rejected nor out of reach. Reading it gives the first footer byte of `m0`, and
writing `0xFF` to it changes the footer from `6, 7` to `0xFF, 7`. -/
theorem data_one_past_capacity_counterexample :
    P0.TOSH_DATA_LENGTH = 3
      ∧ m0.footer = [6, 7]
      ∧ read_data P0 ByteOrder.little_endian 3 m0.bytes = 6
      ∧ load (write_data P0 ByteOrder.little_endian 3 0xFF m0.bytes)
          (offsetof P0 Member.footer) (member_size P0 Member.footer) = [0xFF, 7] := by
  decide

/-- C5, amended: for every index `i < C` the write of `data[i]` stores the byte
at offset `H + i` and keeps the size of the envelope, and after all `C` bytes are
written the raw transmit view holds them unmodified at the offsets `H` to
`H + C - 1`. The index is not compared with `C`: `data[C]` has the offset
`H + C`, which is the offset of the footer, and when the footer is not empty a
write of `data[C]` lands in the first footer byte. -/
theorem payload_capacity_boundary (P : RadioTOSMsg) (m : message_t P)
    (host : ByteOrder) (bs : List Nat) (hlen : bs.length = P.TOSH_DATA_LENGTH)
    (hb : ∀ b ∈ bs, b < 256) :
    (∀ i v, i < P.TOSH_DATA_LENGTH → v < 256 →
        load (write_data P host i v m.bytes) (P.sizeof_TOSRadioHeader + i) 1 = [v]
          ∧ (write_data P host i v m.bytes).length = sizeof_message_t P)
      ∧ load (raw_transmit_view P (write_payload P host 0 bs m.bytes))
          P.sizeof_TOSRadioHeader P.TOSH_DATA_LENGTH = bs
      ∧ data_offset P P.TOSH_DATA_LENGTH = offsetof P Member.footer
      ∧ (∀ v, 0 < P.sizeof_TOSRadioFooter →
          load (write_data P host P.TOSH_DATA_LENGTH v m.bytes)
            (offsetof P Member.footer) 1 = [v % 256]) := by
  have hsz := bytes_length m
  have hS := sizeof_message_t_eq P
  refine ⟨?_, ?_, ?_, ?_⟩
  · intro i v hi hv
    have h1 := load_write_field_same host (data_offset P i) sizeof_nx_uint8_t v m.bytes
      (by rw [data_offset_eq, hsz, hS]; simp only [sizeof_nx_uint8_t]; omega)
    rw [data_offset_eq] at h1
    refine ⟨?_, ?_⟩
    · rw [write_data, data_offset_eq]
      refine Eq.trans h1 ?_
      simp [canonical_bytes, sizeof_nx_uint8_t, le_bytes, Nat.mod_eq_of_lt hv]
    · rw [write_data, write_field_length, hsz]
  · rw [raw_transmit_view_of_length P _
      (by rw [write_payload_eq, store_length, hsz])]
    rw [write_payload_eq, map_mod_of_lt bs hb, Nat.add_zero]
    have h2 := load_store_same m.bytes P.sizeof_TOSRadioHeader bs
      (by rw [hsz, hS, hlen]; omega)
    rw [hlen] at h2
    exact h2
  · rw [data_offset_eq, offsetof_footer]
  · intro v hF
    have h1 := load_write_field_same host (data_offset P P.TOSH_DATA_LENGTH)
      sizeof_nx_uint8_t v m.bytes
      (by rw [data_offset_eq, hsz, hS]; simp only [sizeof_nx_uint8_t]; omega)
    rw [data_offset_eq] at h1
    rw [write_data, data_offset_eq, offsetof_footer]
    refine Eq.trans h1 ?_
    simp [canonical_bytes, sizeof_nx_uint8_t, le_bytes]

/-- Witness of C5, amended: the three bytes `10, 11, 12` written to the payload
of `m0` show in the raw transmit view at the offsets 2 to 4. -/
theorem payload_capacity_boundary_witness :
    write_payload P0 ByteOrder.big_endian 0 [10, 11, 12] m0.bytes
        = [1, 2, 10, 11, 12, 6, 7, 8]
      ∧ load (raw_transmit_view P0
            (write_payload P0 ByteOrder.big_endian 0 [10, 11, 12] m0.bytes)) 2 3
          = [10, 11, 12] :=
  ⟨by decide,
    (payload_capacity_boundary P0 m0 ByteOrder.big_endian [10, 11, 12] rfl
      (by decide)).2.1⟩

/-! ## Network-order fields -/

/-- C6: for every field of the envelope, that is every offset `off` and width
`w` with `off + w` within the size of `message_t` (the fields of the header,
footer and metadata sub-blocks included), and every value `v` below `256 ^ w`,
writing `v` and then reading the field returns `v`, on either host. This holds
in particular for the boundary values `0`, `max = 256 ^ w - 1` and `max / 2`. -/
theorem field_round_trip (P : RadioTOSMsg) (m : message_t P) (host : ByteOrder)
    (off w v : Nat) (h : off + w ≤ sizeof_message_t P) (hv : v < 256 ^ w) :
    read_field host off w (write_field host off w v m.bytes) = v
      ∧ read_field host off w (write_field host off w 0 m.bytes) = 0
      ∧ read_field host off w (write_field host off w (256 ^ w - 1) m.bytes)
          = 256 ^ w - 1
      ∧ read_field host off w (write_field host off w ((256 ^ w - 1) / 2) m.bytes)
          = (256 ^ w - 1) / 2 := by
  have hm : off + w ≤ m.bytes.length := by rw [bytes_length]; exact h
  have hpos : 0 < 256 ^ w := Nat.pow_pos (by decide)
  refine ⟨read_write_field host host off w v _ hm hv,
    read_write_field host host off w 0 _ hm hpos,
    read_write_field host host off w _ _ hm (by omega),
    read_write_field host host off w _ _ hm (by omega)⟩

/-- Witness of C6: a four-byte field at offset 3 of `m0` on a little-endian
host gives back the value `0xDEADBEEF` written to it. -/
theorem field_round_trip_witness :
    read_field ByteOrder.little_endian 3 4
        (write_field ByteOrder.little_endian 3 4 0xDEADBEEF m0.bytes) = 0xDEADBEEF :=
  (field_round_trip P0 m0 ByteOrder.little_endian 3 4 0xDEADBEEF (by decide)
    (by decide)).1

/-- C7: for a two-byte field of the header (offset `off` with `off + 2` within
the header), writing `0x1234` on either host puts the bytes `0x12`, `0x34`, in
that order, at the field's offset of the raw transmit view, and reading the
field on a little-endian host returns `0x1234`. -/
theorem header_length_field_example (P : RadioTOSMsg) (m : message_t P)
    (host : ByteOrder) (off : Nat) (h : off + 2 ≤ P.sizeof_TOSRadioHeader) :
    load (raw_transmit_view P
        (write_field host (offsetof P Member.header + off) 2 0x1234 m.bytes))
        (offsetof P Member.header + off) 2 = [0x12, 0x34]
      ∧ read_field ByteOrder.little_endian (offsetof P Member.header + off) 2
          (write_field host (offsetof P Member.header + off) 2 0x1234 m.bytes)
          = 0x1234 := by
  have hS := sizeof_message_t_eq P
  have hm : offsetof P Member.header + off + 2 ≤ m.bytes.length := by
    rw [bytes_length, hS, offsetof_header]
    omega
  refine ⟨?_, read_write_field _ host _ 2 0x1234 _ hm (by decide)⟩
  rw [raw_transmit_view_of_length P _ (by rw [write_field_length, bytes_length]),
    load_write_field_same host _ 2 0x1234 _ hm]
  decide

/-- Witness of C7: the two-byte field at offset 0 of the header of `m0`. -/
theorem header_length_field_example_witness :
    load (raw_transmit_view P0
        (write_field ByteOrder.little_endian (offsetof P0 Member.header + 0) 2 0x1234
          m0.bytes))
        (offsetof P0 Member.header + 0) 2 = [0x12, 0x34]
      ∧ read_field ByteOrder.little_endian (offsetof P0 Member.header + 0) 2
          (write_field ByteOrder.little_endian (offsetof P0 Member.header + 0) 2 0x1234
            m0.bytes)
          = 0x1234 :=
  header_length_field_example P0 m0 ByteOrder.little_endian 0 (by decide)

/-- C8: for every field (offset `off`, width `w`) and every logical value `v`,
a write on a little-endian host and a write on a big-endian host leave the same
bytes in the buffer and so the same raw transmit view: on every host the native
representation is converted to the one canonical big-endian sequence, which
depends on `w` and `v` only, and that sequence is what is stored. -/
theorem canonical_order_invariance (P : RadioTOSMsg) (m : message_t P)
    (off w v : Nat) :
    write_field ByteOrder.little_endian off w v m.bytes
        = write_field ByteOrder.big_endian off w v m.bytes
      ∧ raw_transmit_view P (write_field ByteOrder.little_endian off w v m.bytes)
          = raw_transmit_view P (write_field ByteOrder.big_endian off w v m.bytes)
      ∧ ∀ host : ByteOrder,
          hton host (native_bytes host w v) = canonical_bytes w v
            ∧ write_field host off w v m.bytes
                = store m.bytes off (canonical_bytes w v) := by
  have e : write_field ByteOrder.little_endian off w v m.bytes
      = write_field ByteOrder.big_endian off w v m.bytes := by
    rw [write_field_eq, write_field_eq]
  refine ⟨e, by rw [e], fun host => ⟨hton_native_bytes host w v, write_field_eq host off w v _⟩⟩

/-! ## Frame and directness of payload access -/

theorem read_data_eq_get (P : RadioTOSMsg) (host : ByteOrder) (i : Nat) (mem : List Nat)
    (h : P.sizeof_TOSRadioHeader + i < mem.length) :
    read_data P host i mem = mem.get ⟨P.sizeof_TOSRadioHeader + i, h⟩ := by
  unfold read_data
  simp only [data_offset_eq]
  exact read_field_one host mem _ h

theorem data_index_lt {P : RadioTOSMsg} (m : message_t P) (i : Nat)
    (hi : i < P.TOSH_DATA_LENGTH) : P.sizeof_TOSRadioHeader + i < m.bytes.length := by
  rw [bytes_length, sizeof_message_t_eq]
  omega

theorem bytes_getElem?_read_data {P : RadioTOSMsg} (m : message_t P) (host : ByteOrder)
    (i : Nat) (hi : i < P.TOSH_DATA_LENGTH) :
    m.bytes[P.sizeof_TOSRadioHeader + i]? = some (read_data P host i m.bytes) := by
  rw [read_data_eq_get P host i m.bytes (data_index_lt m i hi),
    List.getElem?_eq_getElem (data_index_lt m i hi)]
  rfl

theorem data_getElem?_read_data {P : RadioTOSMsg} (m : message_t P) (host : ByteOrder)
    (i : Nat) (hi : i < P.TOSH_DATA_LENGTH) :
    m.data[i]? = some (read_data P host i m.bytes) := by
  rw [← bytes_getElem?_read_data m host i hi, ← payload_eq m]
  unfold payload
  rw [load_getElem?, offsetof_data, if_pos (by simp [member_size, sizeof_nx_uint8_t, hi])]

/-- C9: the payload view has exactly `C` bytes, before and after a write, and
writing `n < C` logical bytes to `data[0]`, ..., `data[n-1]` leaves every
element `data[j]` with `n ≤ j < C` as it was: the stored byte is the one of
before the write and reading `data[j]` still returns it, nothing is zeroed. -/
theorem payload_partial_write_frame (P : RadioTOSMsg) (m : message_t P)
    (host : ByteOrder) (bs : List Nat) (j : Nat) (h1 : bs.length ≤ j)
    (h2 : j < P.TOSH_DATA_LENGTH) :
    payload P m.bytes = m.data
      ∧ (payload P m.bytes).length = P.TOSH_DATA_LENGTH
      ∧ (payload P (write_payload P host 0 bs m.bytes)).length = P.TOSH_DATA_LENGTH
      ∧ (payload P (write_payload P host 0 bs m.bytes))[j]? = m.data[j]?
      ∧ m.data[j]? = some (read_data P host j (write_payload P host 0 bs m.bytes)) := by
  have hsz := bytes_length m
  have hw : (write_payload P host 0 bs m.bytes).length = sizeof_message_t P := by
    rw [write_payload_eq, store_length, hsz]
  refine ⟨payload_eq m, payload_length P _ hsz, payload_length P _ hw, ?_, ?_⟩
  · rw [← payload_eq m]
    unfold payload
    rw [write_payload_eq, Nat.add_zero, offsetof_data, load_getElem?, load_getElem?]
    by_cases hj : j < member_size P Member.data
    · rw [if_pos hj, if_pos hj]
      exact store_getElem?_outside _ _ _ _ (by simp only [List.length_map]; omega)
    · rw [if_neg hj, if_neg hj]
  · rw [data_getElem?_read_data m host j h2]
    unfold read_data read_field
    rw [write_payload_eq, Nat.add_zero, data_offset_eq,
      load_store_disjoint _ _ _ _ _ (by simp only [List.length_map]; omega)]

/-- Witness of C9: one byte written to the three-byte payload of `m0`; the
elements `data[1]` and `data[2]` keep the values 4 and 5. -/
theorem payload_partial_write_frame_witness :
    payload P0 (write_payload P0 ByteOrder.little_endian 0 [0xAA] m0.bytes)
        = [0xAA, 4, 5]
      ∧ (payload P0 (write_payload P0 ByteOrder.little_endian 0 [0xAA] m0.bytes))[2]?
          = m0.data[2]? :=
  ⟨by decide,
    (payload_partial_write_frame P0 m0 ByteOrder.little_endian [0xAA] 2
      (by decide) (by decide)).2.2.2.1⟩

/-- C10: each payload element is one byte with direct access. For every
`i < C` and either host, `data[i]` sits at offset `H + i`, reading it returns
the raw byte stored there (the byte `i` of the payload block) with no swap, and
writing a value `v` in `0..255` stores exactly `v` at offset `H + i`. -/
theorem data_element_direct (P : RadioTOSMsg) (m : message_t P) (host : ByteOrder)
    (i v : Nat) (hi : i < P.TOSH_DATA_LENGTH) (hv : v < 256) :
    data_offset P i = P.sizeof_TOSRadioHeader + i
      ∧ m.bytes[P.sizeof_TOSRadioHeader + i]? = some (read_data P host i m.bytes)
      ∧ m.data[i]? = some (read_data P host i m.bytes)
      ∧ (write_data P host i v m.bytes)[P.sizeof_TOSRadioHeader + i]? = some v
      ∧ read_data P ByteOrder.little_endian i m.bytes
          = read_data P ByteOrder.big_endian i m.bytes := by
  have hlt := data_index_lt m i hi
  refine ⟨data_offset_eq P i, bytes_getElem?_read_data m host i hi,
    data_getElem?_read_data m host i hi, ?_, ?_⟩
  · rw [write_data_eq, List.getElem?_set_self hlt, Nat.mod_eq_of_lt hv]
  · rw [read_data_eq_get P _ i m.bytes hlt, read_data_eq_get P _ i m.bytes hlt]

/-- Witness of C10: element `data[1]` of `m0` is the byte at offset 3. -/
theorem data_element_direct_witness :
    read_data P0 ByteOrder.little_endian 1 m0.bytes = 4
      ∧ m0.bytes[P0.sizeof_TOSRadioHeader + 1]?
          = some (read_data P0 ByteOrder.little_endian 1 m0.bytes)
      ∧ (write_data P0 ByteOrder.little_endian 1 0x7F m0.bytes)[P0.sizeof_TOSRadioHeader + 1]?
          = some 0x7F :=
  ⟨by decide,
    (data_element_direct P0 m0 ByteOrder.little_endian 1 0x7F (by decide) (by decide)).2.1,
    (data_element_direct P0 m0 ByteOrder.little_endian 1 0x7F (by decide)
      (by decide)).2.2.2.1⟩

/-! ## Frame of one payload write -/

theorem write_data_getElem?_ne (P : RadioTOSMsg) (host : ByteOrder) (i v : Nat)
    (mem : List Nat) (k : Nat) (hk : k ≠ P.sizeof_TOSRadioHeader + i) :
    (write_data P host i v mem)[k]? = mem[k]? := by
  rw [write_data_eq]
  exact List.getElem?_set_ne (Ne.symm hk)

theorem load_write_data_disjoint (P : RadioTOSMsg) (host : ByteOrder) (i v : Nat)
    (mem : List Nat) (o n : Nat)
    (h : o + n ≤ P.sizeof_TOSRadioHeader + i ∨ P.sizeof_TOSRadioHeader + i + 1 ≤ o) :
    load (write_data P host i v mem) o n = load mem o n := by
  unfold write_data
  exact load_write_field_disjoint host _ _ v mem o n
    (by rw [data_offset_eq]; simp only [sizeof_nx_uint8_t]; exact h)

/-- C12: for every `message_t` and every index `i < C`, the write of `data[i]`
changes at most the byte at offset `H + i` of the envelope: every other offset
keeps its byte, so the header, footer and metadata blocks and every other
payload element `data[j]`, `j ≠ i`, are unchanged, and the envelope keeps its
size. -/
theorem write_data_frame (P : RadioTOSMsg) (m : message_t P) (host : ByteOrder)
    (i v : Nat) (hi : i < P.TOSH_DATA_LENGTH) :
    (write_data P host i v m.bytes).length = m.bytes.length
      ∧ (write_data P host i v m.bytes).length = sizeof_message_t P
      ∧ (∀ k, k ≠ P.sizeof_TOSRadioHeader + i →
          (write_data P host i v m.bytes)[k]? = m.bytes[k]?)
      ∧ load (write_data P host i v m.bytes) (offsetof P Member.header)
          (member_size P Member.header) = m.header
      ∧ load (write_data P host i v m.bytes) (offsetof P Member.footer)
          (member_size P Member.footer) = m.footer
      ∧ load (write_data P host i v m.bytes) (offsetof P Member.metadata)
          (member_size P Member.metadata) = m.metadata
      ∧ (∀ j, j ≠ i → (payload P (write_data P host i v m.bytes))[j]? = m.data[j]?) := by
  have hlen : (write_data P host i v m.bytes).length = m.bytes.length := by
    unfold write_data
    exact write_field_length host _ _ v _
  refine ⟨hlen, by rw [hlen, bytes_length],
    fun k hk => write_data_getElem?_ne P host i v _ k hk, ?_, ?_, ?_, ?_⟩
  · rw [load_write_data_disjoint P host i v _ _ _
      (by rw [offsetof_header]; simp only [member_size]; omega)]
    exact load_member m Member.header
  · rw [load_write_data_disjoint P host i v _ _ _
      (by rw [offsetof_footer]; omega)]
    exact load_member m Member.footer
  · rw [load_write_data_disjoint P host i v _ _ _
      (by rw [offsetof_metadata]; omega)]
    exact load_member m Member.metadata
  · intro j hj
    rw [← payload_eq m]
    unfold payload
    rw [load_getElem?, load_getElem?, offsetof_data,
      write_data_getElem?_ne P host i v _ _ (by omega)]

/-- Witness of C12: writing `0x55` to `data[1]` of `m0` changes the byte at
offset 3 only. -/
theorem write_data_frame_witness :
    write_data P0 ByteOrder.big_endian 1 0x55 m0.bytes = [1, 2, 3, 0x55, 5, 6, 7, 8]
      ∧ m0.bytes = [1, 2, 3, 4, 5, 6, 7, 8]
      ∧ load (write_data P0 ByteOrder.big_endian 1 0x55 m0.bytes)
          (offsetof P0 Member.footer) (member_size P0 Member.footer) = m0.footer :=
  ⟨by decide, by decide,
    (write_data_frame P0 m0 ByteOrder.big_endian 1 0x55 (by decide)).2.2.2.2.1⟩

/-! ## Width discipline of the accessors -/

theorem make_isSome_iff (f : Field) (w : Nat) :
    (Accessor.make f w).isSome = true ↔ w = f.width := by
  unfold Accessor.make
  by_cases h : w = f.width
  · simp [h]
  · simp [h]

theorem make_eq_some (f : Field) (w : Nat) (a : Accessor) (h : Accessor.make f w = some a) :
    a.field = f ∧ a.width = f.width := by
  unfold Accessor.make at h
  by_cases hw : w = f.width
  · rw [dif_pos hw] at h
    cases h
    exact ⟨rfl, hw⟩
  · rw [dif_neg hw] at h
    cases h

/-- C11: an accessor for a field of the envelope can only be constructed with
the field's declared width: construction with any other width is refused, and
reads and writes through a constructed accessor are total, so a mismatch is
never met at run time. A write through a constructed accessor keeps the size of
the envelope, puts the canonical bytes of the value in the field, and leaves the
bytes of every other field `g` (a field that does not overlap `f`, adjacent ones
included) as they were. The element `data[i]` is such a field: its accessor has
the width of `nx_uint8_t` and is the access `m->data[i]`. -/
theorem accessor_width_discipline (P : RadioTOSMsg) (m : message_t P)
    (host : ByteOrder) (f g : Field) (w v : Nat)
    (hf : f.offset + f.width ≤ sizeof_message_t P)
    (hg : g.offset + g.width ≤ f.offset ∨ f.offset + f.width ≤ g.offset) :
    ((Accessor.make f w).isSome = true ↔ w = f.width)
      ∧ (∀ a, Accessor.make f w = some a →
          a.field = f ∧ a.width = f.width
            ∧ (a.write host v m.bytes).length = sizeof_message_t P
            ∧ load (a.write host v m.bytes) f.offset f.width = canonical_bytes f.width v
            ∧ load (a.write host v m.bytes) g.offset g.width
                = load m.bytes g.offset g.width)
      ∧ (∀ i, ∃ a, Accessor.make (data_field P i) sizeof_nx_uint8_t = some a
          ∧ a.write host v m.bytes = write_data P host i v m.bytes
          ∧ a.read host m.bytes = read_data P host i m.bytes) := by
  refine ⟨make_isSome_iff f w, ?_, ?_⟩
  · intro a ha
    obtain ⟨h1, h2⟩ := make_eq_some f w a ha
    refine ⟨h1, h2, ?_, ?_, ?_⟩
    · unfold Accessor.write
      rw [write_field_length, bytes_length]
    · unfold Accessor.write
      rw [h1, h2]
      exact load_write_field_same host _ _ v _ (by rw [bytes_length]; exact hf)
    · unfold Accessor.write
      rw [h1, h2]
      exact load_write_field_disjoint host _ _ v _ _ _ hg
  · intro i
    exact ⟨{ field := data_field P i, width := sizeof_nx_uint8_t, width_eq := rfl },
      by simp [Accessor.make, data_field], rfl, rfl⟩

/-- Witness of C11: for the two-byte field at offset 0 of `m0` an accessor of
width 3 is refused (stored raw with width 3, the value would overwrite
`data[0]`), and a write through the accessor of width 2 leaves `data[0]`, the
adjacent field, as it was. -/
theorem accessor_width_discipline_witness :
    (Accessor.make field0 3).isSome = false
      ∧ load (write_field ByteOrder.little_endian 0 3 0x123456 m0.bytes) 2 1 = [0x56]
      ∧ load m0.bytes 2 1 = [3]
      ∧ (∀ a, Accessor.make field0 2 = some a →
          load (a.write ByteOrder.little_endian 0x1234 m0.bytes)
              (data_field P0 0).offset (data_field P0 0).width
            = load m0.bytes (data_field P0 0).offset (data_field P0 0).width) :=
  ⟨by decide, by decide, by decide, fun a ha =>
    ((accessor_width_discipline P0 m0 ByteOrder.little_endian field0 (data_field P0 0)
      2 0x1234 (by decide) (by decide)).2.1 a ha).2.2.2.2⟩

end TOSMsg
